import Mathlib

/-
Verification of the chunking / embedding / vector-store / retrieval core of
the `hackx` RAG pipeline (files `rag/text_splitter.py`, `rag/embedder.py`,
`rag/vector_store.py`, `rag/retriever.py`, `rag/rag_pipeline.py`).

The Python code is shallowly embedded:
  * strings are Lean `String`s; the UTF-8 byte count of `s.encode('utf-8')`
    is the sum of the UTF-8 sizes of the characters of `s`;
  * Python `str.split()` (split on whitespace runs, dropping empties) and
    `' '.join`, `str.strip()` are modelled as structural functions on the
    character list of the string;
  * the remote Gemini embedding service is an oracle
    `String → Option (List ℤ)` (`none` models a call that keeps failing
    through every retry);
  * thread-pool completion order of `as_completed` is an explicit
    permutation parameter listing batch indices in completion order;
  * exceptions (`ValueError` from `range()`, `IndexError` from list
    indexing) are modelled with `Except String`.
-/

/-- Whitespace test used by Python `str.split()` / `str.strip()`. -/
def pyWhite (c : Char) : Bool := c.isWhitespace

/-- Helper for `strWords`: scans the character list, accumulating the
current word; a whitespace character closes the current word (if any). -/
def wordsAux : List Char → List Char → List String
  | [], cur => if cur = [] then [] else [String.mk cur]
  | c :: rest, cur =>
      if pyWhite c then
        (if cur = [] then wordsAux rest [] else String.mk cur :: wordsAux rest [])
      else wordsAux rest (cur ++ [c])

/-- Python `s.split()`: the maximal whitespace-free words of `s`, in order. -/
def strWords (s : String) : List String := wordsAux s.data []

/-- Python `' '.join(ws)`: words joined with a single space. -/
def joinWords : List String → String
  | [] => ""
  | [w] => w
  | w :: ws => w ++ " " ++ joinWords ws

/-- Python `s.strip()`: removes leading and trailing whitespace. -/
def pyStrip (s : String) : String :=
  String.mk (((s.data.dropWhile pyWhite).reverse.dropWhile pyWhite).reverse)

/-- Length in bytes of the UTF-8 encoding of `s` (Python `len(s.encode('utf-8'))`). -/
def byteLen (s : String) : Nat := (s.data.map Char.utf8Size).sum

/-! ### text_splitter.py -/

/-- Loop of `_split_by_words` (text_splitter.py lines 39-44):
`for i in range(0, len(words), step): chunk = ' '.join(words[i:i+chunk_size]);
if chunk.strip(): chunks.append(chunk.strip())`.  The `fuel` argument only
bounds the recursion; it is called with enough fuel for the whole range. -/
def splitWordsGo (words : List String) (chunk_size step : Nat) : Nat → Nat → List String
  | 0, _ => []
  | fuel + 1, i =>
      if i < words.length then
        if pyStrip (joinWords ((words.drop i).take chunk_size)) = "" then
          splitWordsGo words chunk_size step fuel (i + step)
        else
          pyStrip (joinWords ((words.drop i).take chunk_size))
            :: splitWordsGo words chunk_size step fuel (i + step)
      else []

/-- Embedding of `_split_by_words(text, chunk_size, overlap)`
(text_splitter.py lines 31-45).  Python's `range(0, n, step)` raises
`ValueError` when `step == 0` and is empty when `step < 0` and `n > 0`,
which is modelled by the two degenerate branches. -/
def _split_by_words (text : String) (chunk_size overlap : Nat) : Except String (List String) :=
  let words := strWords text
  if words.length ≤ chunk_size then .ok [text]
  else
    let step : Int := (chunk_size : Int) - (overlap : Int)
    if step = 0 then .error "ValueError: range() arg 3 must not be zero"
    else if step < 0 then .ok []
    else .ok (splitWordsGo words chunk_size step.toNat words.length 0)

/-- Loop of `_split_oversized_chunk` (text_splitter.py lines 197-212):
`cur` is `current_chunk`, `curBytes` is `current_bytes`; each word costs its
UTF-8 byte length plus one for the separating space. -/
def splitOversizedGo (max_bytes : Nat) : List String → List String → Nat → List String
  | [], cur, _ => if cur = [] then [] else [joinWords cur]
  | w :: ws, cur, curBytes =>
      let wb := byteLen w + 1
      if curBytes + wb > max_bytes ∧ cur ≠ [] then
        joinWords cur :: splitOversizedGo max_bytes ws [w] wb
      else
        splitOversizedGo max_bytes ws (cur ++ [w]) (curBytes + wb)

/-- Embedding of `_split_oversized_chunk(chunk, max_bytes)`
(text_splitter.py lines 181-214). -/
def _split_oversized_chunk (chunk : String) (max_bytes : Nat) : List String :=
  splitOversizedGo max_bytes (strWords chunk) [] 0

/-- Embedding of `validate_and_split_chunks(chunks, max_bytes)`
(text_splitter.py lines 152-179): each chunk is kept when its byte length is
within `max_bytes`, otherwise replaced in place by its split pieces. -/
def validate_and_split_chunks (chunks : List String) (max_bytes : Nat) : List String :=
  chunks.flatMap (fun chunk =>
    if byteLen chunk ≤ max_bytes then [chunk] else _split_oversized_chunk chunk max_bytes)

/-! ### embedder.py -/

/-- The zero-vector fallback `[0.0] * 768` of `_process_batch_sequential`
(embedder.py line 149).  Vector components are modelled as integers (the remote service returns uninterpreted numeric payloads; no claim depends on fractional values). -/
def zeroVec : List ℤ := List.replicate 768 0

/-- Embedding of `_process_batch_sequential(chunks_batch, model_name)`
(embedder.py lines 133-150): per chunk, the oracle's answer, or the all-zero
vector when the remote call keeps failing. -/
def _process_batch_sequential (oracle : String → Option (List ℤ)) (chunks_batch : List String) :
    List (List ℤ) :=
  chunks_batch.map (fun chunk => (oracle chunk).getD zeroVec)

/-- Option-valued traversal: `some` of the list of results when `f`
succeeds on every element, `none` as soon as one element fails. -/
def traverseOpt (f : α → Option β) : List α → Option (List β)
  | [] => some []
  | x :: xs =>
      match f x, traverseOpt f xs with
      | some y, some ys => some (y :: ys)
      | _, _ => none

/-- Embedding of `_process_batch_with_retry(chunks_batch, model_name)`
(embedder.py lines 112-131): all chunks embedded sequentially; the first
failing chunk aborts the batch (after retries, which a deterministic failing
oracle fails identically), discarding any vectors built so far. -/
def _process_batch_with_retry (oracle : String → Option (List ℤ)) (chunks_batch : List String) :
    Option (List (List ℤ)) :=
  traverseOpt oracle chunks_batch

/-- Embedding of `_process_batch(chunks_batch, model_name)`
(embedder.py lines 92-110): single-chunk batches call the service directly,
larger batches use the retry path; any failure falls back to
`_process_batch_sequential`, so this function never raises. -/
def _process_batch (oracle : String → Option (List ℤ)) (chunks_batch : List String) :
    List (List ℤ) :=
  match chunks_batch with
  | [c] =>
      match oracle c with
      | some v => [v]
      | none => _process_batch_sequential oracle [c]
  | _ =>
      match _process_batch_with_retry oracle chunks_batch with
      | some vs => vs
      | none => _process_batch_sequential oracle chunks_batch

/-- Helper for `listChunks`: `fuel`-bounded structural recursion cutting the
list into consecutive pieces of length `n`. -/
def chunksGo (n : Nat) : Nat → List α → List (List α)
  | 0, _ => []
  | _, [] => []
  | fuel + 1, x :: xs => ((x :: xs).take n) :: chunksGo n fuel ((x :: xs).drop n)

/-- Python `[l[i:i+n] for i in range(0, len(l), n)]` (embedder.py line 55),
for a positive batch size `n` (the callers pass positive sizes; Python's
`range` would raise on `n == 0`). -/
def listChunks (l : List α) (n : Nat) : List (List α) := chunksGo n l.length l

/-- The adaptive batch size of embedder.py lines 45-52. -/
def adjustedBatchSize (validatedLen batch_size : Nat) : Nat :=
  if validatedLen ≤ 10 then min batch_size 10
  else if validatedLen ≤ 50 then min batch_size 25
  else batch_size

/-- The batches submitted to the thread pool by `embed_text_chunks`
(embedder.py lines 45-55). -/
def batchesOf (chunks : List String) (batch_size max_chunk_bytes : Nat) : List (List String) :=
  let validated := validate_and_split_chunks chunks max_chunk_bytes
  listChunks validated (adjustedBatchSize validated.length batch_size)

/-- Result shape of `embed_text_chunks`: a bare list for empty input
(embedder.py line 33), a pair `(embeddings, validated_chunks)` otherwise
(line 90). -/
inductive EmbedResult where
  | bare (embeddings : List (List ℤ))
  | pair (embeddings : List (List ℤ)) (validated_chunks : List String)
  deriving DecidableEq

/-- Embedding of `embed_text_chunks(chunks, ...)` (embedder.py lines 20-90).
`order` lists the batch indices in the order in which `as_completed` yields
their futures; the loop at lines 70-83 extends `embeddings` in exactly that
completion order.  `_process_batch` never raises, so the `except` fallback
at lines 77-83 is dead with a deterministic oracle. -/
def embed_text_chunks (oracle : String → Option (List ℤ)) (chunks : List String)
    (batch_size max_chunk_bytes : Nat) (order : List Nat) : EmbedResult :=
  if chunks = [] then .bare []
  else
    let validated := validate_and_split_chunks chunks max_chunk_bytes
    let batches := batchesOf chunks batch_size max_chunk_bytes
    let embeddings := (order.map (fun i => _process_batch oracle (batches.getD i []))).flatten
    .pair embeddings validated

/-! ### vector_store.py -/

/-- State of `FaissVectorStore` (vector_store.py lines 6-17): the flat L2
index is the list of stored vectors (`index.ntotal` is its length), `meta`
the parallel metadata list.  Persistence (`save`) is out of scope. -/
structure FaissVectorStore where
  dim : Nat
  index : List (List ℤ)
  meta : List String
  deriving DecidableEq

/-- Embedding of `FaissVectorStore.clear` (vector_store.py lines 19-26):
a fresh empty index of the same dimension and an empty metadata list. -/
def FaissVectorStore.clear (s : FaissVectorStore) : FaissVectorStore :=
  { s with index := [], meta := [] }

/-- Embedding of `FaissVectorStore.add(embeddings, metadatas)`
(vector_store.py lines 40-44): vectors appended to the index, metadata
extended. -/
def FaissVectorStore.add (s : FaissVectorStore) (embeddings : List (List ℤ))
    (metadatas : List String) : FaissVectorStore :=
  { s with index := s.index ++ embeddings, meta := s.meta ++ metadatas }

/-- The stored-vector count `index.ntotal`. -/
def FaissVectorStore.count (s : FaissVectorStore) : Nat := s.index.length

/-- Squared Euclidean distance used by `faiss.IndexFlatL2`. -/
def l2sq (q v : List ℤ) : ℤ := ((q.zip v).map (fun p => (p.1 - p.2) ^ 2)).sum

/-- Stable sort by ascending key (nearest-first order of a flat L2 scan). -/
def sortByKey (key : α → ℤ) (l : List α) : List α :=
  List.insertionSort (fun a b => key a ≤ key b) l

/-- The index row `I[0]` returned by `faiss.IndexFlatL2.search(query, k)`:
the stored-vector indices sorted by ascending squared L2 distance to the
query, truncated to `k` entries, padded with `-1` when the index holds
fewer than `k` vectors. -/
def faissSearchIndices (stored : List (List ℤ)) (q : List ℤ) (k : Nat) : List Int :=
  let order := sortByKey (fun i => l2sq q (stored.getD i [])) (List.range stored.length)
  let top := (order.take k).map (fun (i : Nat) => (i : Int))
  top ++ List.replicate (k - top.length) (-1)

/-- Python `l[i]` for an `int` index: negative indices count from the end;
out-of-range access is an `IndexError`, modelled by `none`. -/
def pyGet (l : List α) (i : Int) : Option α :=
  if 0 ≤ i then l.get? i.toNat
  else if 0 ≤ (l.length : Int) + i then l.get? ((l.length : Int) + i).toNat
  else none

/-- Embedding of `FaissVectorStore.search(query_embedding, top_k)`
(vector_store.py lines 46-50): `results = [self.meta[i] for i in I[0]]`,
where an out-of-range metadata access raises `IndexError`. -/
def FaissVectorStore.search (s : FaissVectorStore) (query_embedding : List ℤ)
    (top_k : Nat) : Except String (List String) :=
  let I := faissSearchIndices s.index query_embedding top_k
  match traverseOpt (pyGet s.meta) I with
  | some results => .ok results
  | none => .error "IndexError: list index out of range"

/-- An `add`/`clear` call on the store; an `add` is well formed when it
supplies equally many vectors and metadata entries. -/
inductive StoreOp where
  | add (embeddings : List (List ℤ)) (metadatas : List String)
  | clear

/-- Executes one store operation. -/
def runOp (s : FaissVectorStore) : StoreOp → FaissVectorStore
  | .add es ms => s.add es ms
  | .clear => s.clear

/-- Executes a sequence of store operations in order. -/
def runOps (s : FaissVectorStore) (ops : List StoreOp) : FaissVectorStore :=
  ops.foldl runOp s

/-- Well-formedness of a store operation: `add` supplies equally many
vectors and metadata entries. -/
def StoreOp.wf : StoreOp → Prop
  | .add es ms => es.length = ms.length
  | .clear => True

/-! ### rag_pipeline.py -/

/-- State of `RAGPipeline` relevant to ingestion verification
(rag_pipeline.py lines 10-17). -/
structure RAGPipeline where
  embedding_dim : Nat
  vector_store : FaissVectorStore
  chunks : List String
  is_ingested : Bool
  deriving DecidableEq

/-- Embedding of `RAGPipeline._verify_ingestion` (rag_pipeline.py lines
154-205).  `test_embedding` is the vector the embedding service returns for
the probe string `"test"`.  A nonzero vector count that differs from the
metadata length only prints a warning (lines 177-180) and does not fail;
any exception from the probe search is re-raised as a verification
failure. -/
def _verify_ingestion (p : RAGPipeline) (test_embedding : List ℤ) : Except String Unit :=
  if p.chunks = [] then .error "No chunks available for verification"
  else if p.vector_store.count = 0 then
    .error "Vector database is empty. No vectors were stored."
  else
    match p.vector_store.search test_embedding 1 with
    | .error e => .error ("Vector database verification failed: " ++ e)
    | .ok test_results =>
        if test_results = [] then
          .error "Vector database verification failed: Vector database retrieval test failed. No results returned."
        else .ok ()

/-- Embedding of the tail of `RAGPipeline.ingest_document` (rag_pipeline.py
lines 107-110): run `_verify_ingestion`, then set `is_ingested := true`;
a raised exception propagates and leaves the pipeline state unchanged. -/
def ingest_document_tail (p : RAGPipeline) (test_embedding : List ℤ) :
    Except String RAGPipeline :=
  match _verify_ingestion p test_embedding with
  | .error e => .error e
  | .ok _ => .ok { p with is_ingested := true }

/-! ### retriever.py -/

/-- Python `set.add` on a set represented as a duplicate-free list. -/
def setAdd (s : List Nat) (x : Nat) : List Nat := if x ∈ s then s else s ++ [x]

/-- Adds every element of `t` to the set `s`. -/
def setAddAll (s t : List Nat) : List Nat := t.foldl setAdd s

/-- Python `int(n * q)` for a natural `n` and rational `q`: the product
`n * q` equals `(n * q.num) / q.den` with positive denominator, and `int()`
truncates toward zero, which is `Int.tdiv`. -/
def pyIntMulNat (n : Nat) (q : ℚ) : Int := ((n : Int) * q.num).tdiv (q.den : Int)

/-- Python `list.sort()` on naturals (ascending stable sort). -/
def sortNat (l : List Nat) : List Nat := List.insertionSort (· ≤ ·) l

/-- The `±2` neighbourhood contributions of one relevant index
(retriever.py lines 54-59): offsets `-2 .. 2` kept when in range and not
already relevant. -/
def contextWindow (total : Nat) (relevant : List Nat) (idx : Nat) : List Nat :=
  ([-2, -1, 0, 1, 2] : List Int).filterMap (fun off =>
    let ci : Int := (idx : Int) + off
    if 0 ≤ ci ∧ ci < (total : Int) ∧ ci.toNat ∉ relevant then some ci.toNat else none)

/-- Embedding of `retrieve_relevant_chunks(query, vector_store, all_chunks,
model_name, top_k, context_ratio)` (retriever.py lines 4-88).
`query_embedding` is the embedding of the query produced by the embedding
client (a single-batch call, so completion order is irrelevant).  Sets of
indices are duplicate-free lists; Python's set iteration order does not
matter because all additions are monotone unions. -/
def retrieve_relevant_chunks (query_embedding : List ℤ) (store : FaissVectorStore)
    (all_chunks : List String) (top_k : Nat) ( context_ratio : ℚ) :
    Except String (List (Nat × String)) :=
  match store.search query_embedding top_k with
  | .error e => .error e
  | .ok relevant_chunks =>
      let total := all_chunks.length
      let relevant_indices : List Nat :=
        setAddAll [] (relevant_chunks.filterMap (fun c => all_chunks.findIdx? (fun x => x = c)))
      let context_chunks_count : Int := pyIntMulNat total context_ratio
      let remaining_indices := (List.range total).filter (fun i => i ∉ relevant_indices)
      let window := relevant_indices.foldl
        (fun acc idx => setAddAll acc (contextWindow total relevant_indices idx)) []
      let context_indices :=
        if (window.length : Int) < context_chunks_count then
          let additional_needed := context_chunks_count - (window.length : Int)
          let n3 := (additional_needed / 3).toNat
          let len := remaining_indices.length
          let headPart := remaining_indices.take (min n3 len)
          let mid_start := len / 2
          let midPart := (remaining_indices.drop mid_start).take (min (mid_start + n3) len - mid_start)
          let tailPart := remaining_indices.drop (len - n3)
          setAddAll (setAddAll (setAddAll window headPart) midPart) tailPart
        else window
      let all_selected_indices := sortNat (setAddAll relevant_indices context_indices)
      match traverseOpt
          (fun idx => (all_chunks.get? idx).map (fun c => (idx, c))) all_selected_indices with
      | some result => .ok result
      | none => .error "IndexError: list index out of range"

/-- Accumulated byte cost of `current_chunk`: each word plus one separator. -/
def wordCost (ws : List String) : Nat := (ws.map (fun w => byteLen w + 1)).sum

/-! ### Helper lemmas -/

theorem traverseOpt_some_of_forall (f : α → Option β) :
    ∀ l : List α, (∀ x ∈ l, (f x).isSome) →
      ∃ r, traverseOpt f l = some r ∧ r.length = l.length := by
  intro l
  induction l with
  | nil => intro _; exact ⟨[], rfl, rfl⟩
  | cons x xs ih =>
      intro h
      obtain ⟨y, hy⟩ := Option.isSome_iff_exists.mp (h x (by simp))
      obtain ⟨ys, hys, hlen⟩ := ih (fun a ha => h a (by simp [ha]))
      exact ⟨y :: ys, by simp [traverseOpt, hy, hys], by simp [hlen]⟩

theorem traverseOpt_eq_some (f : α → Option β) :
    ∀ (l : List α) (r : List β), traverseOpt f l = some r →
      r.length = l.length ∧ ∀ i : Nat, ∀ x ∈ l.get? i, f x = r.get? i := by
  intro l
  induction l with
  | nil =>
      intro r hr
      simp only [traverseOpt] at hr
      cases hr
      exact ⟨rfl, by intro i x hx; simp at hx⟩
  | cons a as ih =>
      intro r hr
      simp only [traverseOpt] at hr
      cases hfa : f a with
      | none => rw [hfa] at hr; cases hr
      | some y =>
          rw [hfa] at hr
          cases hrest : traverseOpt f as with
          | none => rw [hrest] at hr; cases hr
          | some ys =>
              rw [hrest] at hr
              cases hr
              obtain ⟨hlen, hget⟩ := ih ys hrest
              refine ⟨by simp [hlen], ?_⟩
              intro i x hx
              cases i with
              | zero => simp at hx; subst hx; simpa using hfa
              | succ n => simpa using hget n x (by simpa using hx)

/-! ### Claim C3: index count equals metadata length -/

/-- C3: for every sequence of `add`/`clear` operations in which each `add`
supplies equally many vectors and metadata entries, the stored-vector count
equals the metadata length after the sequence (hence at every observation
point, since the statement holds for every initial segment of the sequence). -/
theorem store_count_eq_meta_length (s0 : FaissVectorStore) (ops : List StoreOp)
    (hinit : s0.count = s0.meta.length) (hwf : ∀ op ∈ ops, op.wf) :
    (runOps s0 ops).count = (runOps s0 ops).meta.length := by
  induction ops generalizing s0 with
  | nil => exact hinit
  | cons op ops ih =>
      have hop : op.wf := hwf op (by simp)
      have hops : ∀ o ∈ ops, o.wf := fun o ho => hwf o (by simp [ho])
      show (runOps (runOp s0 op) ops).count = (runOps (runOp s0 op) ops).meta.length
      apply ih _ _ hops
      cases op with
      | add es ms =>
          simp only [StoreOp.wf] at hop
          simp [runOp, FaissVectorStore.add, FaissVectorStore.count,
            FaissVectorStore.count] at *
          omega
      | clear => simp [runOp, FaissVectorStore.clear, FaissVectorStore.count]

/-- Witness for C3 at a concrete operation sequence. -/
theorem store_count_eq_meta_length_witness :
    (runOps ⟨1, [], []⟩
      [StoreOp.add [[1], [2]] ["a", "b"], StoreOp.clear, StoreOp.add [[3]] ["c"]]).count =
    (runOps ⟨1, [], []⟩
      [StoreOp.add [[1], [2]] ["a", "b"], StoreOp.clear, StoreOp.add [[3]] ["c"]]).meta.length :=
  store_count_eq_meta_length _ _ rfl (by
    intro op hop
    fin_cases hop <;> simp [StoreOp.wf])

/-! ### Claim C10: result shape differs on empty and non-empty input -/

/-- C10: on the empty chunk list `embed_text_chunks` returns the bare empty
list, while on every non-empty chunk list it returns an
`(embeddings, validated_chunks)` pair, so the result shape depends on
emptiness of the input. -/
theorem embed_result_shape (oracle : String → Option (List ℤ)) (chunks : List String)
    (batch_size max_chunk_bytes : Nat) (order : List Nat) (hne : chunks ≠ []) :
    embed_text_chunks oracle [] batch_size max_chunk_bytes order = .bare [] ∧
    ∃ es vc, embed_text_chunks oracle chunks batch_size max_chunk_bytes order = .pair es vc := by
  constructor
  · rfl
  · unfold embed_text_chunks
    rw [if_neg hne]
    exact ⟨_, _, rfl⟩

/-- Witness for C10 at a concrete oracle and input. -/
theorem embed_result_shape_witness :
    embed_text_chunks (fun _ => some [1]) [] 50 30000 [0] = .bare [] ∧
    ∃ es vc, embed_text_chunks (fun _ => some [1]) ["a"] 50 30000 [0] = .pair es vc :=
  embed_result_shape (fun _ => some [1]) ["a"] 50 30000 [0] (by simp)

/-! ### Claim C1: embeddings are concatenated in completion order -/

/-- C1 refutation: with two single-chunk batches and an oracle that embeds a
chunk as the one-element vector of its length, the completion order in which
batch 1 finishes before batch 0 (a permutation of the batch indices, so a
possible `as_completed` order) makes `embed_text_chunks` return the vectors
in completion order: the first returned vector is `[2]`, the embedding of
`"bb"`, not the embedding `[1]` of the first validated chunk `"a"`.  The
vector sequence is therefore not aligned index-for-index with the validated
chunk sequence. -/
theorem embed_completion_order_misaligns :
    embed_text_chunks (fun c => some [(c.length : ℤ)]) ["a", "bb"] 1 30000 [1, 0]
        = .pair [[(2 : ℤ)], [(1 : ℤ)]] ["a", "bb"] ∧
    List.Perm [1, 0] (List.range (batchesOf ["a", "bb"] 1 30000).length) ∧
    (fun c => some [(c.length : ℤ)]) "a" = some [(1 : ℤ)] ∧
    [[(2 : ℤ)], [(1 : ℤ)]].get? 0 ≠ some [(1 : ℤ)] :=
  ⟨rfl, by decide, rfl, by decide⟩

/-! ### Claim C8: the advance step is not clamped -/

/-- C8 refutation: on the three-word text `"a b c"` with
`chunk_size = overlap = 2`, `_split_by_words` raises Python's `ValueError`
from `range()` instead of clamping the step to 1, and with `overlap = 3`
(negative step) it returns the empty list, which does not cover the text. -/
theorem split_by_words_not_clamped :
    _split_by_words "a b c" 2 2 = .error "ValueError: range() arg 3 must not be zero" ∧
    _split_by_words "a b c" 2 3 = .ok [] :=
  ⟨rfl, rfl⟩

/-- C8 amended: when the word count exceeds `chunk_size` and
`chunk_size ≤ overlap`, the advance step is not clamped: an overlap equal to
`chunk_size` makes `range()` raise `ValueError`, and a larger overlap makes
the range empty, so the split returns the empty chunk list.  Termination
always holds, but the text is not covered. -/
theorem split_by_words_degenerate (text : String) (chunk_size overlap : Nat)
    (hlen : chunk_size < (strWords text).length) :
    (overlap = chunk_size →
      _split_by_words text chunk_size overlap
        = .error "ValueError: range() arg 3 must not be zero") ∧
    (chunk_size < overlap → _split_by_words text chunk_size overlap = .ok []) := by
  constructor
  · intro heq
    unfold _split_by_words
    rw [if_neg (not_le.mpr hlen), if_pos (by omega)]
  · intro hlt
    unfold _split_by_words
    rw [if_neg (not_le.mpr hlen), if_neg (by omega), if_pos (by omega)]

/-- Witness for the amended C8 on a concrete degenerate input. -/
theorem split_by_words_degenerate_witness :
    (_split_by_words "p q r" 1 1 = .error "ValueError: range() arg 3 must not be zero") ∧
    (_split_by_words "p q r" 1 2 = .ok []) :=
  ⟨(split_by_words_degenerate "p q r" 1 1 (by decide)).1 rfl,
   (split_by_words_degenerate "p q r" 1 2 (by decide)).2 (by decide)⟩

/-! ### Search lemmas shared by the vector-store and pipeline claims -/

theorem faissSearchIndices_def (stored : List (List ℤ)) (q : List ℤ) (k : Nat) :
    faissSearchIndices stored q k =
      ((sortByKey (fun i => l2sq q (stored.getD i [])) (List.range stored.length)).take k).map
          (fun (i : Nat) => (i : Int)) ++
        List.replicate
          (k - (((sortByKey (fun i => l2sq q (stored.getD i []))
            (List.range stored.length)).take k).map (fun (i : Nat) => (i : Int))).length)
          (-1) := rfl

theorem sortByKey_range_length (stored : List (List ℤ)) (q : List ℤ) :
    (sortByKey (fun i => l2sq q (stored.getD i [])) (List.range stored.length)).length
      = stored.length := by
  have h := (List.perm_insertionSort
    (fun a b => l2sq q (stored.getD a []) ≤ l2sq q (stored.getD b []))
    (List.range stored.length)).length_eq
  rw [List.length_range] at h
  exact h

theorem faissSearchIndices_length (stored : List (List ℤ)) (q : List ℤ) (k : Nat) :
    (faissSearchIndices stored q k).length = k := by
  rw [faissSearchIndices_def, List.length_append, List.length_replicate,
    List.length_map, List.length_take, sortByKey_range_length]
  omega

theorem faissSearchIndices_mem (stored : List (List ℤ)) (q : List ℤ) (k : Nat) :
    ∀ i ∈ faissSearchIndices stored q k, i = -1 ∨ (0 ≤ i ∧ i < (stored.length : Int)) := by
  intro i hi
  rw [faissSearchIndices_def] at hi
  rcases List.mem_append.mp hi with hi | hi
  · right
    obtain ⟨j, hj, rfl⟩ := List.mem_map.mp hi
    have hj' : j ∈ List.range stored.length := by
      have hperm := List.perm_insertionSort
        (fun a b => l2sq q (stored.getD a []) ≤ l2sq q (stored.getD b []))
        (List.range stored.length)
      exact hperm.mem_iff.mp (by simpa [sortByKey] using List.mem_of_mem_take hj)
    have := List.mem_range.mp hj'
    omega
  · left
    exact List.eq_of_mem_replicate hi

theorem search_ok_of_le (s : FaissVectorStore) (q : List ℤ) (k : Nat)
    (hne : s.index ≠ []) (hle : s.index.length ≤ s.meta.length) :
    ∃ res, s.search q k = .ok res ∧ res.length = k := by
  have hmlen : 1 ≤ s.meta.length := by
    have : 1 ≤ s.index.length := List.length_pos.mpr hne
    omega
  have hsome : ∀ i ∈ faissSearchIndices s.index q k, (pyGet s.meta i).isSome := by
    intro i hi
    rcases faissSearchIndices_mem s.index q k i hi with rfl | ⟨h0, hlt⟩
    · have hge : (0 : Int) ≤ (s.meta.length : Int) + (-1) := by omega
      have hlt' : ((s.meta.length : Int) + (-1)).toNat < s.meta.length := by omega
      simp only [pyGet, if_neg (by omega : ¬ (0 : Int) ≤ -1), if_pos hge]
      rw [List.get?_eq_get hlt']
      simp
    · have hlt' : i.toNat < s.meta.length := by omega
      simp only [pyGet, if_pos h0]
      rw [List.get?_eq_get hlt']
      simp
  obtain ⟨res, hres, hlen⟩ := traverseOpt_some_of_forall _ _ hsome
  refine ⟨res, ?_, ?_⟩
  · simp only [FaissVectorStore.search, hres]
  · rw [hlen, faissSearchIndices_length]

theorem search_error_of_empty (s : FaissVectorStore) (q : List ℤ) (k : Nat)
    (hidx : s.index = []) (hmeta : s.meta = []) (hk : 0 < k) :
    s.search q k = .error "IndexError: list index out of range" := by
  obtain ⟨k, rfl⟩ := Nat.exists_eq_succ_of_ne_zero (Nat.pos_iff_ne_zero.mp hk)
  simp only [FaissVectorStore.search, faissSearchIndices, hidx, hmeta]
  simp [sortByKey, List.replicate_succ, traverseOpt, pyGet]

/-! ### Claim C4: search on a small or empty index -/

/-- C4 refutation: on an empty index, `search` does not return the empty
sequence; the flat L2 engine pads the result row with index `-1`, and the
Python metadata lookup `meta[-1]` on the empty metadata list raises
`IndexError`. -/
theorem search_empty_index_fails :
    FaissVectorStore.search ⟨1, [], []⟩ [0] 5 = .error "IndexError: list index out of range" ∧
    FaissVectorStore.search ⟨1, [], []⟩ [0] 5 ≠ .ok [] :=
  ⟨rfl, by intro h; cases h.symm.trans rfl⟩

/-- C4 amended: `search` never returns fewer than `top_k` results.  On an
empty index with positive `top_k` it raises `IndexError` (the padding index
`-1` is looked up in the empty metadata list) instead of returning the
empty sequence; on a non-empty index whose metadata covers every vector it
returns exactly `top_k` results, with `-1` padding slots resolved by
Python's negative indexing to the last metadata entry when the index holds
fewer than `top_k` vectors. -/
theorem search_small_index (s : FaissVectorStore) (q : List ℤ) (k : Nat) :
    (s.index = [] → s.meta = [] → 0 < k →
      s.search q k = .error "IndexError: list index out of range") ∧
    (s.index ≠ [] → s.index.length ≤ s.meta.length →
      ∃ res, s.search q k = .ok res ∧ res.length = k) := by
  constructor
  · intro h1 h2 h3
    exact search_error_of_empty s q k h1 h2 h3
  · intro h1 h2
    exact search_ok_of_le s q k h1 h2

/-- Witness for the amended C4: an empty store fails, and a one-vector
store still answers a `top_k = 2` query with exactly two results. -/
theorem search_small_index_witness :
    (FaissVectorStore.search ⟨1, [], []⟩ [0] 3 = .error "IndexError: list index out of range") ∧
    (∃ res, FaissVectorStore.search ⟨1, [[0]], ["a"]⟩ [0] 2 = .ok res ∧ res.length = 2) :=
  ⟨(search_small_index ⟨1, [], []⟩ [0] 3).1 rfl rfl (by decide),
   (search_small_index ⟨1, [[0]], ["a"]⟩ [0] 2).2 (by decide) (by decide)⟩

/-! ### Claim C5: a count mismatch at verification is not fatal -/

/-- C5 refutation: a pipeline whose index holds 2 vectors while the
metadata list holds 3 entries (a count mismatch) still passes
`_verify_ingestion` — the mismatch branch only prints a warning — and the
ingestion tail sets `is_ingested := true`, transitioning to ready. -/
theorem verify_count_mismatch_passes :
    (FaissVectorStore.count ⟨1, [[0], [1]], ["a", "b", "c"]⟩ ≠
      (FaissVectorStore.meta ⟨1, [[0], [1]], ["a", "b", "c"]⟩).length) ∧
    ingest_document_tail ⟨1, ⟨1, [[0], [1]], ["a", "b", "c"]⟩, ["a", "b", "c"], false⟩ [0]
      = .ok ⟨1, ⟨1, [[0], [1]], ["a", "b", "c"]⟩, ["a", "b", "c"], true⟩ :=
  ⟨by decide, rfl⟩

/-- C5 amended: at the post-ingestion verification step a zero vector count
is fatal (the ingestion error propagates, so `is_ingested` is not set),
but a nonzero vector count that mismatches the metadata count is only
logged as a warning: whenever the count is nonzero and every stored vector
has a metadata entry, verification succeeds and the pipeline still
transitions to ready. -/
theorem verify_ingestion_behaviour (p : RAGPipeline) (test_embedding : List ℤ)
    (hch : p.chunks ≠ []) :
    (p.vector_store.count = 0 →
      ingest_document_tail p test_embedding
        = .error "Vector database is empty. No vectors were stored.") ∧
    (p.vector_store.count ≠ 0 →
      p.vector_store.index.length ≤ p.vector_store.meta.length →
      ingest_document_tail p test_embedding = .ok { p with is_ingested := true }) := by
  constructor
  · intro hzero
    simp only [ingest_document_tail, _verify_ingestion, if_neg hch, if_pos hzero]
  · intro hnz hle
    have hne : p.vector_store.index ≠ [] := by
      intro h
      exact hnz (by simp [FaissVectorStore.count, h])
    obtain ⟨res, hres, hlen⟩ := search_ok_of_le p.vector_store test_embedding 1 hne hle
    have hresne : res ≠ [] := by
      intro h
      rw [h] at hlen
      exact absurd hlen (by decide)
    simp only [ingest_document_tail, _verify_ingestion, if_neg hch, if_neg hnz, hres,
      if_neg hresne]

/-- Witness for the amended C5: the zero-count branch fails, and a
mismatched but nonzero store still transitions to ready. -/
theorem verify_ingestion_behaviour_witness :
    (ingest_document_tail ⟨1, ⟨1, [], []⟩, ["a"], false⟩ [0]
      = .error "Vector database is empty. No vectors were stored.") ∧
    (ingest_document_tail ⟨1, ⟨1, [[5]], ["a", "b"]⟩, ["a"], false⟩ [0]
      = .ok ⟨1, ⟨1, [[5]], ["a", "b"]⟩, ["a"], true⟩) :=
  ⟨(verify_ingestion_behaviour ⟨1, ⟨1, [], []⟩, ["a"], false⟩ [0] (by decide)).1 rfl,
   (verify_ingestion_behaviour ⟨1, ⟨1, [[5]], ["a", "b"]⟩, ["a"], false⟩ [0] (by decide)).2
     (by decide) (by decide)⟩

/-! ### Byte-length lemmas for the oversized-chunk splitter -/

theorem byteLen_append (a b : String) : byteLen (a ++ b) = byteLen a + byteLen b := by
  simp [byteLen, String.data_append]

theorem byteLen_joinWords (ws : List String) (hne : ws ≠ []) :
    byteLen (joinWords ws) + 1 = wordCost ws := by
  induction ws with
  | nil => exact absurd rfl hne
  | cons w ws ih =>
      cases ws with
      | nil => simp [joinWords, wordCost]
      | cons v vs =>
          have h := ih (by simp)
          simp only [joinWords, wordCost, List.map_cons, List.sum_cons, byteLen_append]
          simp only [wordCost, List.map_cons, List.sum_cons] at h
          have hsp : byteLen " " = 1 := rfl
          omega

theorem splitOversizedGo_bounded (max_bytes : Nat) :
    ∀ (ws cur : List String) (curBytes : Nat),
      (∀ w ∈ ws, byteLen w ≤ max_bytes) →
      curBytes = wordCost cur →
      (cur ≠ [] → curBytes ≤ max_bytes + 1) →
      ∀ c ∈ splitOversizedGo max_bytes ws cur curBytes, byteLen c ≤ max_bytes := by
  intro ws
  induction ws with
  | nil =>
      intro cur curBytes _ hcost hbound c hc
      simp only [splitOversizedGo] at hc
      by_cases hcur : cur = []
      · rw [if_pos hcur] at hc
        simp at hc
      · rw [if_neg hcur] at hc
        simp only [List.mem_singleton] at hc
        subst hc
        have := byteLen_joinWords cur hcur
        have := hbound hcur
        omega
  | cons w ws ih =>
      intro cur curBytes hws hcost hbound c hc
      have hw : byteLen w ≤ max_bytes := hws w (by simp)
      have hws' : ∀ v ∈ ws, byteLen v ≤ max_bytes := fun v hv => hws v (by simp [hv])
      simp only [splitOversizedGo] at hc
      by_cases hflush : curBytes + (byteLen w + 1) > max_bytes ∧ cur ≠ []
      · rw [if_pos hflush] at hc
        rcases List.mem_cons.mp hc with rfl | hc'
        · have := byteLen_joinWords cur hflush.2
          have := hbound hflush.2
          omega
        · exact ih [w] (byteLen w + 1) hws' (by simp [wordCost]) (fun _ => by omega) c hc'
      · rw [if_neg hflush] at hc
        refine ih (cur ++ [w]) (curBytes + (byteLen w + 1)) hws' ?_ ?_ c hc
        · simp [wordCost, List.map_append, List.sum_append, hcost]
        · intro _
          by_cases hcur : cur = []
          · subst hcur
            simp only [wordCost, List.map_nil, List.sum_nil] at hcost
            omega
          · have : ¬ curBytes + (byteLen w + 1) > max_bytes := fun hgt => hflush ⟨hgt, hcur⟩
            omega

/-! ### Claim C2: byte bound of the validation pass -/

/-- C2 refutation: a single word whose UTF-8 byte length exceeds
`max_bytes` cannot be split on word boundaries, so the validation pass
emits it unchanged: `validate_and_split_chunks ["aaaa"] 3` returns
`["aaaa"]`, whose byte length 4 exceeds `max_bytes = 3`. -/
theorem validate_and_split_oversized_word :
    validate_and_split_chunks ["aaaa"] 3 = ["aaaa"] ∧ ¬ byteLen "aaaa" ≤ 3 :=
  ⟨by decide, by decide⟩

/-- C2 amended: provided every whitespace-separated word of every input
chunk has UTF-8 byte length at most `max_bytes`, every chunk returned by
`validate_and_split_chunks` has UTF-8 byte length at most `max_bytes`
(a single word longer than `max_bytes` cannot be split on word boundaries
and is emitted unchanged, which is the only exception). -/
theorem validate_and_split_bounded (chunks : List String) (max_bytes : Nat)
    (hw : ∀ chunk ∈ chunks, ∀ w ∈ strWords chunk, byteLen w ≤ max_bytes) :
    ∀ c ∈ validate_and_split_chunks chunks max_bytes, byteLen c ≤ max_bytes := by
  intro c hc
  simp only [validate_and_split_chunks, List.mem_flatMap] at hc
  obtain ⟨chunk, hchunk, hcmem⟩ := hc
  by_cases hsmall : byteLen chunk ≤ max_bytes
  · rw [if_pos hsmall] at hcmem
    simp only [List.mem_singleton] at hcmem
    subst hcmem
    exact hsmall
  · rw [if_neg hsmall] at hcmem
    exact splitOversizedGo_bounded max_bytes (strWords chunk) [] 0
      (hw chunk hchunk) (by simp [wordCost]) (fun h => absurd rfl h) c hcmem

/-- Witness for the amended C2: the oversized chunk `"ab ab"` is split into
word-bounded pieces, and the piece `"ab"` respects the byte limit. -/
theorem validate_and_split_bounded_witness : byteLen "ab" ≤ 3 :=
  validate_and_split_bounded ["ab ab"] 3 (by decide) "ab" (by decide)

/-! ### Batch lemmas for the embedder -/

theorem traverseOpt_some_map (f : α → Option β) (d : β) :
    ∀ (l : List α) (r : List β), traverseOpt f l = some r →
      r = l.map (fun x => (f x).getD d) := by
  intro l
  induction l with
  | nil =>
      intro r hr
      simp only [traverseOpt] at hr
      cases hr
      rfl
  | cons a as ih =>
      intro r hr
      simp only [traverseOpt] at hr
      cases hfa : f a with
      | none => rw [hfa] at hr; cases hr
      | some y =>
          rw [hfa] at hr
          cases hrest : traverseOpt f as with
          | none => rw [hrest] at hr; cases hr
          | some ys =>
              rw [hrest] at hr
              cases hr
              simp [hfa, ih ys hrest]

/-- Whatever path `_process_batch` takes — the direct single-chunk call,
the retry loop, or the sequential fallback — the result is the per-chunk
oracle answer with the zero-vector substituted for failures. -/
theorem _process_batch_eq_sequential (oracle : String → Option (List ℤ))
    (chunks_batch : List String) :
    _process_batch oracle chunks_batch = _process_batch_sequential oracle chunks_batch := by
  match chunks_batch with
  | [c] =>
      simp only [_process_batch]
      cases hc : oracle c with
      | none => rfl
      | some v => simp [_process_batch_sequential, hc]
  | [] => rfl
  | c1 :: c2 :: rest =>
      simp only [_process_batch, _process_batch_with_retry]
      cases htr : traverseOpt oracle (c1 :: c2 :: rest) with
      | none => rfl
      | some vs => exact traverseOpt_some_map oracle zeroVec _ vs htr

theorem _process_batch_length (oracle : String → Option (List ℤ)) (b : List String) :
    (_process_batch oracle b).length = b.length := by
  rw [_process_batch_eq_sequential]
  simp [_process_batch_sequential]

theorem chunksGo_flatten (n : Nat) (hn : 0 < n) :
    ∀ (fuel : Nat) (l : List α), l.length ≤ fuel → (chunksGo n fuel l).flatten = l := by
  intro fuel
  induction fuel with
  | zero =>
      intro l hl
      have hl0 : l = [] := List.length_eq_zero.mp (by omega)
      subst hl0
      rfl
  | succ fuel ih =>
      intro l hl
      cases l with
      | nil => rfl
      | cons x xs =>
          simp only [chunksGo, List.flatten_cons]
          rw [ih ((x :: xs).drop n)
            (by rw [List.length_drop]; simp only [List.length_cons] at hl ⊢; omega),
            List.take_append_drop]

theorem listChunks_flatten (l : List α) (n : Nat) (hn : 0 < n) :
    (listChunks l n).flatten = l :=
  chunksGo_flatten n hn l.length l le_rfl

theorem sum_getD_length (L : List (List α)) :
    ((List.range L.length).map (fun i => (L.getD i []).length)).sum = L.flatten.length := by
  induction L with
  | nil => rfl
  | cons x L ih =>
      rw [List.length_cons, List.range_succ_eq_map, List.map_cons, List.sum_cons,
        List.map_map]
      have hcomp : ((fun i => ((x :: L).getD i []).length) ∘ Nat.succ)
          = (fun i => (L.getD i []).length) := by
        funext i
        rfl
      rw [hcomp, ih]
      simp [List.flatten_cons, List.length_append]

theorem adjustedBatchSize_pos (validatedLen batch_size : Nat) (hbs : 0 < batch_size) :
    0 < adjustedBatchSize validatedLen batch_size := by
  unfold adjustedBatchSize
  split <;> [skip; split] <;> omega

/-! ### Claim C6: one vector per validated chunk, zero vectors on failure -/

/-- C6: for a non-empty chunk list, a positive batch size, and any batch
completion order (a permutation of the batch indices), `embed_text_chunks`
returns exactly one vector per validated chunk; and when every remote call
fails, every returned vector is the deterministic all-zero vector of the
configured dimension (768), so the result is a full list of zero vectors
rather than an aborted ingestion. -/
theorem embed_one_vector_per_chunk (oracle : String → Option (List ℤ))
    (chunks : List String) (batch_size max_chunk_bytes : Nat) (order : List Nat)
    (hne : chunks ≠ []) (hbs : 0 < batch_size)
    (hperm : order.Perm (List.range (batchesOf chunks batch_size max_chunk_bytes).length)) :
    (∃ es, embed_text_chunks oracle chunks batch_size max_chunk_bytes order
        = .pair es (validate_and_split_chunks chunks max_chunk_bytes) ∧
      es.length = (validate_and_split_chunks chunks max_chunk_bytes).length) ∧
    ((∀ c, oracle c = none) →
      embed_text_chunks oracle chunks batch_size max_chunk_bytes order
        = .pair (List.replicate (validate_and_split_chunks chunks max_chunk_bytes).length
            zeroVec)
          (validate_and_split_chunks chunks max_chunk_bytes)) := by
  have hembed : embed_text_chunks oracle chunks batch_size max_chunk_bytes order
      = .pair ((order.map (fun i =>
          _process_batch oracle ((batchesOf chunks batch_size max_chunk_bytes).getD i []))).flatten)
        (validate_and_split_chunks chunks max_chunk_bytes) := by
    unfold embed_text_chunks
    rw [if_neg hne]
  have hflat : (batchesOf chunks batch_size max_chunk_bytes).flatten
      = validate_and_split_chunks chunks max_chunk_bytes :=
    listChunks_flatten _ _ (adjustedBatchSize_pos _ _ hbs)
  have hlen : ((order.map (fun i =>
      _process_batch oracle ((batchesOf chunks batch_size max_chunk_bytes).getD i []))).flatten).length
      = (validate_and_split_chunks chunks max_chunk_bytes).length := by
    rw [List.length_flatten, List.map_map]
    have hmap : (order.map (List.length ∘ fun i =>
        _process_batch oracle ((batchesOf chunks batch_size max_chunk_bytes).getD i [])))
        = order.map (fun i =>
            ((batchesOf chunks batch_size max_chunk_bytes).getD i []).length) := by
      apply List.map_congr_left
      intro i _
      simp [Function.comp, _process_batch_length]
    rw [hmap, (hperm.map _).sum_eq, sum_getD_length, hflat]
  constructor
  · exact ⟨_, hembed, hlen⟩
  · intro hfail
    rw [hembed]
    have : ((order.map (fun i =>
        _process_batch oracle ((batchesOf chunks batch_size max_chunk_bytes).getD i []))).flatten)
        = List.replicate (validate_and_split_chunks chunks max_chunk_bytes).length zeroVec := by
      apply List.eq_replicate_iff.mpr
      refine ⟨hlen, ?_⟩
      intro v hv
      obtain ⟨bl, hbl, hvbl⟩ := List.mem_flatten.mp hv
      obtain ⟨i, _, rfl⟩ := List.mem_map.mp hbl
      rw [_process_batch_eq_sequential] at hvbl
      obtain ⟨c, _, rfl⟩ := List.mem_map.mp hvbl
      rw [hfail c]
      rfl
    rw [this]

/-- Witness for C6 at a concrete failing oracle. -/
theorem embed_one_vector_per_chunk_witness :
    embed_text_chunks (fun _ => none) ["a"] 50 30000 [0]
      = .pair (List.replicate (validate_and_split_chunks ["a"] 30000).length zeroVec)
        (validate_and_split_chunks ["a"] 30000) :=
  (embed_one_vector_per_chunk (fun _ => none) ["a"] 50 30000 [0]
    (by decide) (by decide) (by decide)).2 (fun _ => rfl)

/-! ### String lemmas for the word-window splitter -/

theorem wordsAux_good : ∀ (cs cur : List Char),
    (∀ ch ∈ cur, pyWhite ch = false) →
    ∀ w ∈ wordsAux cs cur, w.data ≠ [] ∧ ∀ ch ∈ w.data, pyWhite ch = false := by
  intro cs
  induction cs with
  | nil =>
      intro cur hcur w hw
      simp only [wordsAux] at hw
      by_cases hc : cur = []
      · rw [if_pos hc] at hw
        simp at hw
      · rw [if_neg hc] at hw
        simp only [List.mem_singleton] at hw
        subst hw
        exact ⟨hc, hcur⟩
  | cons c rest ih =>
      intro cur hcur w hw
      simp only [wordsAux] at hw
      by_cases hwc : pyWhite c
      · rw [if_pos hwc] at hw
        by_cases hc : cur = []
        · rw [if_pos hc] at hw
          exact ih [] (by simp) w hw
        · rw [if_neg hc] at hw
          rcases List.mem_cons.mp hw with rfl | hw'
          · exact ⟨hc, hcur⟩
          · exact ih [] (by simp) w hw'
      · rw [if_neg hwc] at hw
        refine ih (cur ++ [c]) ?_ w hw
        intro ch hch
        rcases List.mem_append.mp hch with h | h
        · exact hcur ch h
        · simp only [List.mem_singleton] at h
          subst h
          exact Bool.not_eq_true _ ▸ eq_false_of_ne_true hwc

theorem strWords_good (s : String) :
    ∀ w ∈ strWords s, w.data ≠ [] ∧ ∀ ch ∈ w.data, pyWhite ch = false :=
  wordsAux_good s.data [] (by simp)

theorem joinWords_data_head_last : ∀ ws : List String, ws ≠ [] →
    (∀ w ∈ ws, w.data ≠ [] ∧ ∀ ch ∈ w.data, pyWhite ch = false) →
    (∃ c t, (joinWords ws).data = c :: t ∧ pyWhite c = false) ∧
    (∃ c t, (joinWords ws).data.reverse = c :: t ∧ pyWhite c = false) := by
  intro ws
  induction ws with
  | nil => intro h; exact absurd rfl h
  | cons w vs ih =>
      intro _ hgood
      obtain ⟨hwne, hwch⟩ := hgood w (by simp)
      cases vs with
      | nil =>
          constructor
          · cases hd : w.data with
            | nil => exact absurd hd hwne
            | cons c t =>
                exact ⟨c, t, by simp [joinWords, hd], hwch c (by rw [hd]; simp)⟩
          · cases hr : w.data.reverse with
            | nil => exact absurd (by simpa using hr) hwne
            | cons c t =>
                refine ⟨c, t, by simp [joinWords, hr], ?_⟩
                have : c ∈ w.data.reverse := by rw [hr]; simp
                exact hwch c (List.mem_reverse.mp this)
      | cons v vs' =>
          have hvs : (v :: vs') ≠ [] := by simp
          obtain ⟨⟨c1, t1, hh, hc1⟩, ⟨c2, t2, hr, hc2⟩⟩ :=
            ih hvs (fun x hx => hgood x (by simp [hx]))
          have hdata : (joinWords (w :: v :: vs')).data
              = (w.data ++ [' ']) ++ (joinWords (v :: vs')).data := by
            show (w ++ " " ++ joinWords (v :: vs')).data = _
            simp [String.data_append]
          constructor
          · cases hd : w.data with
            | nil => exact absurd hd hwne
            | cons c t =>
                exact ⟨c, t ++ [' '] ++ (joinWords (v :: vs')).data,
                  by rw [hdata, hd]; simp, hwch c (by rw [hd]; simp)⟩
          · refine ⟨c2, t2 ++ (w.data ++ [' ']).reverse, ?_, hc2⟩
            rw [hdata, List.reverse_append, hr]
            simp

theorem string_mk_data (s : String) : String.mk s.data = s := by
  cases s
  rfl

theorem pyStrip_joinWords (ws : List String) (hne : ws ≠ [])
    (hgood : ∀ w ∈ ws, w.data ≠ [] ∧ ∀ ch ∈ w.data, pyWhite ch = false) :
    pyStrip (joinWords ws) = joinWords ws ∧ joinWords ws ≠ "" := by
  obtain ⟨⟨c1, t1, hh, hc1⟩, ⟨c2, t2, hr, hc2⟩⟩ := joinWords_data_head_last ws hne hgood
  constructor
  · unfold pyStrip
    rw [hh, List.dropWhile_cons, if_neg (by simp [hc1]), ← hh, hr,
      List.dropWhile_cons, if_neg (by simp [hc2]), ← hr, List.reverse_reverse]
  · intro hcon
    rw [hcon] at hh
    cases hh

theorem splitWordsGo_eq (words : List String) (chunk_size step : Nat)
    (hcs : 0 < chunk_size) (hstep : 0 < step)
    (hgood : ∀ w ∈ words, w.data ≠ [] ∧ ∀ ch ∈ w.data, pyWhite ch = false) :
    ∀ (fuel i : Nat), words.length - i ≤ fuel →
      splitWordsGo words chunk_size step fuel i
        = (List.range ((words.length - i + step - 1) / step)).map
            (fun k => joinWords ((words.drop (i + k * step)).take chunk_size)) := by
  intro fuel
  induction fuel with
  | zero =>
      intro i hi
      have h0 : words.length - i = 0 := by omega
      rw [h0, Nat.div_eq_of_lt (by omega)]
      rfl
  | succ fuel ih =>
      intro i hi
      by_cases hlt : i < words.length
      · have hslice_ne : (words.drop i).take chunk_size ≠ [] := by
          intro hcon
          rcases List.take_eq_nil_iff.mp hcon with h | h
          · omega
          · have hdl : (words.drop i).length = 0 := by rw [h]; rfl
            rw [List.length_drop] at hdl
            omega
        have hslice_good : ∀ w ∈ (words.drop i).take chunk_size,
            w.data ≠ [] ∧ ∀ ch ∈ w.data, pyWhite ch = false := fun w hw =>
          hgood w (List.mem_of_mem_drop (List.mem_of_mem_take hw))
        obtain ⟨hstrip, hne⟩ := pyStrip_joinWords _ hslice_ne hslice_good
        have hcount : (words.length - i + step - 1) / step
            = (words.length - (i + step) + step - 1) / step + 1 := by
          by_cases hm : words.length - i ≤ step
          · have h1 : words.length - (i + step) = 0 := by omega
            have h2 : words.length - i + step - 1 = step + (words.length - i - 1) := by omega
            rw [h1, h2, Nat.add_comm step, Nat.add_div_right _ hstep,
              Nat.div_eq_of_lt (by omega), Nat.div_eq_of_lt (by omega)]
          · have h1 : words.length - (i + step) + step - 1 = words.length - i - 1 := by omega
            have h2 : words.length - i + step - 1 = (words.length - i - 1) + step := by omega
            rw [h1, h2, Nat.add_div_right _ hstep]
        show splitWordsGo words chunk_size step (fuel + 1) i = _
        rw [splitWordsGo, if_pos hlt, if_neg (by rw [hstrip]; exact hne), hstrip,
          ih (i + step) (by omega), hcount, List.range_succ_eq_map, List.map_cons,
          List.map_map]
        congr 1
        · rw [Nat.zero_mul, Nat.add_zero]
        · apply List.map_congr_left
          intro k _
          simp only [Function.comp, Nat.succ_mul]
          rw [show i + (k * step + step) = i + step + k * step from by omega]
      · have h0 : words.length - i = 0 := by omega
        show splitWordsGo words chunk_size step (fuel + 1) i = _
        rw [splitWordsGo, if_neg hlt, h0, Nat.div_eq_of_lt (by omega)]
        rfl

/-! ### Claim C7: the word strategy is a sliding window -/

/-- C7: when the text has at most `chunk_size` words, `_split_by_words`
returns the whole text as a single chunk; when `overlap < chunk_size` and
the word count exceeds `chunk_size`, it returns one chunk per window
position: the `k`-th chunk joins the `chunk_size` words starting at word
`k * (chunk_size - overlap)`, i.e. a window of `chunk_size` words advancing
`chunk_size - overlap` words per step, for `⌈word_count / step⌉` steps. -/
theorem split_by_words_window (text : String) (chunk_size overlap : Nat) :
    ((strWords text).length ≤ chunk_size →
      _split_by_words text chunk_size overlap = .ok [text]) ∧
    (overlap < chunk_size → chunk_size < (strWords text).length →
      _split_by_words text chunk_size overlap
        = .ok ((List.range
            (((strWords text).length + (chunk_size - overlap) - 1)
              / (chunk_size - overlap))).map
          (fun k => joinWords (((strWords text).drop (k * (chunk_size - overlap))).take
            chunk_size)))) := by
  constructor
  · intro h
    unfold _split_by_words
    rw [if_pos h]
  · intro hov hlen
    unfold _split_by_words
    rw [if_neg (not_le.mpr hlen)]
    have hstep : (chunk_size : Int) - (overlap : Int) = ((chunk_size - overlap : Nat) : Int) := by
      omega
    rw [hstep, if_neg (by omega), if_neg (by omega)]
    rw [show ((chunk_size - overlap : Nat) : Int).toNat = chunk_size - overlap from by omega]
    rw [splitWordsGo_eq (strWords text) chunk_size (chunk_size - overlap) (by omega) (by omega)
      (strWords_good text) (strWords text).length 0 (by omega)]
    simp only [Nat.sub_zero, Nat.zero_add]

/-- Witness for C7: a one-word text below the window size comes back whole,
and the three-word text `"a b c"` with window 2 and overlap 1 yields the
window chunks at steps 0, 1 and 2. -/
theorem split_by_words_window_witness :
    _split_by_words "a" 2 1 = .ok ["a"] ∧
    _split_by_words "a b c" 2 1
      = .ok ((List.range
          (((strWords "a b c").length + (2 - 1) - 1) / (2 - 1))).map
        (fun k => joinWords (((strWords "a b c").drop (k * (2 - 1))).take 2))) :=
  ⟨(split_by_words_window "a" 2 1).1 (by decide),
   (split_by_words_window "a b c" 2 1).2 (by decide) (by decide)⟩

/-! ### Set and sorting lemmas for the retriever -/

theorem setAdd_nodup (s : List Nat) (x : Nat) (hs : s.Nodup) : (setAdd s x).Nodup := by
  unfold setAdd
  by_cases hx : x ∈ s
  · rw [if_pos hx]
    exact hs
  · rw [if_neg hx]
    simp [List.nodup_append, hs, hx]

theorem setAddAll_nodup (t : List Nat) :
    ∀ s : List Nat, s.Nodup → (setAddAll s t).Nodup := by
  induction t with
  | nil => intro s hs; exact hs
  | cons x xs ih =>
      intro s hs
      exact ih (setAdd s x) (setAdd_nodup s x hs)

theorem sortNat_sorted (l : List Nat) : (sortNat l).Sorted (· ≤ ·) :=
  List.sorted_insertionSort (· ≤ ·) l

theorem sortNat_perm (l : List Nat) : (sortNat l).Perm l :=
  List.perm_insertionSort (· ≤ ·) l

theorem sortNat_sorted_lt (l : List Nat) (hl : l.Nodup) : (sortNat l).Sorted (· < ·) := by
  have hsorted := sortNat_sorted l
  have hnodup : (sortNat l).Nodup := ((sortNat_perm l).nodup_iff).mpr hl
  exact (hsorted.and hnodup).imp (fun h => lt_of_le_of_ne h.1 h.2)

theorem traverseOpt_pairs (all : List String) :
    ∀ (l : List Nat) (r : List (Nat × String)),
      traverseOpt (fun idx => (all.get? idx).map (fun c => (idx, c))) l = some r →
      r.map Prod.fst = l ∧ ∀ p ∈ r, all.get? p.1 = some p.2 := by
  intro l
  induction l with
  | nil =>
      intro r hr
      simp only [traverseOpt] at hr
      cases hr
      exact ⟨rfl, by intro p hp; simp at hp⟩
  | cons a as ih =>
      intro r hr
      simp only [traverseOpt] at hr
      cases hfa : (all.get? a).map (fun c => (a, c)) with
      | none => rw [hfa] at hr; cases hr
      | some y =>
          rw [hfa] at hr
          cases hrest : traverseOpt (fun idx => (all.get? idx).map (fun c => (idx, c))) as with
          | none => rw [hrest] at hr; cases hr
          | some ys =>
              rw [hrest] at hr
              cases hr
              obtain ⟨c, hc, rfl⟩ := Option.map_eq_some'.mp hfa
              obtain ⟨hmap, hmem⟩ := ih ys hrest
              refine ⟨by simp [hmap], ?_⟩
              intro p hp
              rcases List.mem_cons.mp hp with rfl | hp'
              · exact hc
              · exact hmem p hp'

/-! ### Claim C9: retrieval results are sorted and aligned -/

/-- C9: whenever `retrieve_relevant_chunks` returns a result, the positions
of the returned pairs are strictly increasing (sorted ascending in document
order, hence without duplicates), and every pair carries exactly the chunk
stored at its position in `all_chunks`. -/
theorem retrieve_sorted_aligned (query_embedding : List ℤ) (store : FaissVectorStore)
    (all_chunks : List String) (top_k : Nat) ( context_ratio : ℚ)
    (result : List (Nat × String))
    (h : retrieve_relevant_chunks query_embedding store all_chunks top_k context_ratio
      = .ok result) :
    (result.map Prod.fst).Sorted (· < ·) ∧
    ∀ p ∈ result, all_chunks.get? p.1 = some p.2 := by
  unfold retrieve_relevant_chunks at h
  cases hs : store.search query_embedding top_k with
  | error e => rw [hs] at h; cases h
  | ok relevant_chunks =>
      rw [hs] at h
      simp only at h
      split at h
      case _ r hr =>
        cases h
        obtain ⟨hmap, hmem⟩ := traverseOpt_pairs all_chunks _ result hr
        refine ⟨?_, hmem⟩
        rw [hmap]
        exact sortNat_sorted_lt _ (setAddAll_nodup _ _ (setAddAll_nodup _ [] (by simp)))
      case _ hr => cases h

/-- Witness for C9 on a concrete store and chunk list. -/
theorem retrieve_sorted_aligned_witness :
    (([(0, "a"), (1, "b")] : List (Nat × String)).map Prod.fst).Sorted (· < ·) ∧
    ∀ p ∈ ([(0, "a"), (1, "b")] : List (Nat × String)),
      ["a", "b"].get? p.1 = some p.2 :=
  retrieve_sorted_aligned [0] ⟨1, [[0], [1]], ["a", "b"]⟩ ["a", "b"] 1 0
    [(0, "a"), (1, "b")] rfl
